import Mathlib

/-!
Verification of the FOD-Detection real-time multi-camera inference pipeline
against its natural-language specification.  The core pipeline (postprocessor,
batch assembler, letterbox preprocessor, orchestrator, output router) is the
Rust backend of the Tauri application; the graphical shell is the Svelte
frontend.  Geometry is embedded over the rationals; machine integers are
naturals.
-/

namespace FodSpec

/-! ## Geometry: axis-aligned boxes and intersection-over-union -/

/-- An axis-aligned bounding box given by its two corners, in model or
original-frame coordinates. -/
structure Box where
  x1 : ℚ
  y1 : ℚ
  x2 : ℚ
  y2 : ℚ
  deriving DecidableEq, Repr

/-- Area of the overlap of two boxes (clamped at zero in each axis). -/
def interArea (a b : Box) : ℚ :=
  max 0 (min a.x2 b.x2 - max a.x1 b.x1) * max 0 (min a.y2 b.y2 - max a.y1 b.y1)

/-- Area of a box. -/
def boxArea (a : Box) : ℚ := (a.x2 - a.x1) * (a.y2 - a.y1)

/-- Intersection-over-union of two boxes. -/
def iouQ (a b : Box) : ℚ := interArea a b / (boxArea a + boxArea b - interArea a b)

theorem interArea_comm (a b : Box) : interArea a b = interArea b a := by
  unfold interArea
  rw [min_comm a.x2 b.x2, max_comm a.x1 b.x1, min_comm a.y2 b.y2, max_comm a.y1 b.y1]

theorem iouQ_comm (a b : Box) : iouQ a b = iouQ b a := by
  unfold iouQ
  rw [interArea_comm, add_comm (boxArea a) (boxArea b)]

/-! ## Postprocessor (spec §4.5)

Modelled from the spec: the Rust postprocessor source is not part of the
checked-in tree (only the shell, manifest and logs are), so the decode /
confidence-filter / class-aware NMS stage is embedded following §4.5:
discard candidates below `conf`; sort the rest by confidence descending with
ties broken by earlier-decoded index; greedily keep a candidate unless its
IoU with a same-class already-kept candidate exceeds `iou`. -/

/-- A decoded candidate detection: class id, confidence score, box, and the
index at which it was decoded from the raw tensor. -/
structure Cand where
  cls : ℕ
  score : ℚ
  box : Box
  idx : ℕ
  deriving DecidableEq, Repr

/-- Sorting relation for NMS: higher confidence first, ties broken by
earlier-decoded index. -/
def candRel (a b : Cand) : Prop :=
  b.score < a.score ∨ (a.score = b.score ∧ a.idx ≤ b.idx)

instance : DecidableRel candRel := fun a b => by
  unfold candRel; infer_instance

instance : IsTotal Cand candRel where
  total a b := by
    rcases lt_trichotomy a.score b.score with h | h | h
    · exact Or.inr (Or.inl h)
    · rcases Nat.le_total a.idx b.idx with hi | hi
      · exact Or.inl (Or.inr ⟨h, hi⟩)
      · exact Or.inr (Or.inr ⟨h.symm, hi⟩)
    · exact Or.inl (Or.inl h)

instance : IsTrans Cand candRel where
  trans a b c hab hbc := by
    rcases hab with h1 | ⟨h1, h1i⟩ <;> rcases hbc with h2 | ⟨h2, h2i⟩
    · exact Or.inl (h2.trans h1)
    · exact Or.inl (h2 ▸ h1)
    · exact Or.inl (h1 ▸ h2)
    · exact Or.inr ⟨h1.trans h2, h1i.trans h2i⟩

/-- Confidence filtering: keep exactly the candidates whose score is at least
the `conf` threshold (spec: discard candidates below `conf`). -/
def confFilter (conf : ℚ) (l : List Cand) : List Cand :=
  l.filter (fun c => decide (conf ≤ c.score))

/-- Whether candidate `c` is suppressed by the already-kept list `kept`:
true iff some same-class kept candidate overlaps it with IoU above `iou`. -/
def suppressedBy (iou : ℚ) (kept : List Cand) (c : Cand) : Bool :=
  kept.any (fun k => decide (k.cls = c.cls) && decide (iou < iouQ k.box c.box))

/-- Greedy NMS pass over a (confidence-descending) candidate list,
accumulating kept candidates in order. -/
def nmsGo (iou : ℚ) : List Cand → List Cand → List Cand
  | kept, [] => kept
  | kept, c :: rest =>
    if suppressedBy iou kept c then nmsGo iou kept rest
    else nmsGo iou (kept ++ [c]) rest

/-- Class-aware non-max suppression over a candidate list. -/
def nms (iou : ℚ) (l : List Cand) : List Cand := nmsGo iou [] l

/-- Full postprocessing of one frame's decoded candidates: confidence filter,
stable confidence-descending sort, then NMS. -/
def postprocess (conf iou : ℚ) (cands : List Cand) : List Cand :=
  nms iou (List.insertionSort candRel (confFilter conf cands))

/-- Pairwise compatibility predicate: two same-class detections overlap with
IoU at most the threshold. -/
def iouOk (iou : ℚ) (a b : Cand) : Prop :=
  a.cls = b.cls → iouQ a.box b.box ≤ iou

theorem mem_nmsGo (iou : ℚ) :
    ∀ (l kept : List Cand), ∀ c ∈ nmsGo iou kept l, c ∈ kept ∨ c ∈ l := by
  intro l
  induction l with
  | nil => intro kept c hc; exact Or.inl hc
  | cons d rest ih =>
    intro kept c hc
    unfold nmsGo at hc
    by_cases hs : suppressedBy iou kept d = true
    · simp only [hs, if_true] at hc
      rcases ih kept c hc with h | h
      · exact Or.inl h
      · exact Or.inr (List.mem_cons_of_mem _ h)
    · simp only [hs, if_false, Bool.false_eq_true] at hc
      rcases ih (kept ++ [d]) c hc with h | h
      · rcases List.mem_append.mp h with h | h
        · exact Or.inl h
        · exact Or.inr (List.mem_cons.mpr (Or.inl (List.mem_singleton.mp h)))
      · exact Or.inr (List.mem_cons_of_mem _ h)

theorem nmsGo_pairwise (iou : ℚ) :
    ∀ (l kept : List Cand), kept.Pairwise (iouOk iou) →
      (nmsGo iou kept l).Pairwise (iouOk iou) := by
  intro l
  induction l with
  | nil => intro kept h; exact h
  | cons c rest ih =>
    intro kept h
    unfold nmsGo
    by_cases hs : suppressedBy iou kept c = true
    · simp only [hs, if_true]
      exact ih kept h
    · simp only [hs, if_false, Bool.false_eq_true]
      refine ih (kept ++ [c]) ?_
      refine List.pairwise_append.mpr ⟨h, List.pairwise_singleton _ _, ?_⟩
      intro a ha b hb
      rw [List.mem_singleton.mp hb]
      intro hcls
      by_contra hgt
      push_neg at hgt
      have : suppressedBy iou kept c = true := by
        unfold suppressedBy
        rw [List.any_eq_true]
        exact ⟨a, ha, by simp [hcls, hgt]⟩
      exact hs this

theorem mem_postprocess_score {conf iou : ℚ} {cands : List Cand} :
    ∀ c ∈ postprocess conf iou cands, conf ≤ c.score := by
  intro c hc
  unfold postprocess nms at hc
  rcases mem_nmsGo iou _ [] c hc with h | h
  · cases h
  · have hf : c ∈ confFilter conf cands :=
      (List.perm_insertionSort candRel (confFilter conf cands)).mem_iff.mp h
    have := List.of_mem_filter hf
    exact of_decide_eq_true this

/-- C1: in every frame's final Detection set produced by the postprocessor,
any two surviving same-class detections have IoU at most `iou` and every
survivor has confidence at least `conf`; candidates are considered in
confidence-descending order with ties broken by earlier-decoded index, and a
candidate is suppressed iff its IoU with some same-class already-kept
candidate exceeds `iou`. -/
theorem C1_postprocess_nms (conf iou : ℚ) (cands : List Cand) :
    (∀ c ∈ postprocess conf iou cands, conf ≤ c.score) ∧
    (∀ a ∈ postprocess conf iou cands, ∀ b ∈ postprocess conf iou cands,
      a ≠ b → a.cls = b.cls → iouQ a.box b.box ≤ iou) ∧
    List.Sorted candRel (List.insertionSort candRel (confFilter conf cands)) ∧
    (∀ kept c, suppressedBy iou kept c = true ↔
      ∃ k ∈ kept, k.cls = c.cls ∧ iou < iouQ k.box c.box) := by
  refine ⟨mem_postprocess_score, ?_, List.sorted_insertionSort candRel _, ?_⟩
  · have hpw : (postprocess conf iou cands).Pairwise (iouOk iou) :=
      nmsGo_pairwise iou _ [] (List.Pairwise.nil)
    have hsymm : Symmetric (iouOk iou) := by
      intro a b hab hcls
      rw [iouQ_comm]
      exact hab hcls.symm
    intro a ha b hb hne
    exact hpw.forall hsymm ha hb hne
  · intro kept c
    unfold suppressedBy
    rw [List.any_eq_true]
    constructor
    · rintro ⟨k, hk, hpred⟩
      refine ⟨k, hk, ?_, ?_⟩
      · have := (Bool.and_eq_true _ _).mp hpred |>.1
        exact of_decide_eq_true this
      · have := (Bool.and_eq_true _ _).mp hpred |>.2
        exact of_decide_eq_true this
    · rintro ⟨k, hk, h1, h2⟩
      exact ⟨k, hk, by simp [h1, h2]⟩

/-! ## Batch Assembler (spec §4.2)

Modelled from the spec: the Rust batch-assembly source is not part of the
checked-in tree, so the assembler is embedded following §4.2: include every
frame that arrived within the acquisition window; below `batch_min` proceed
anyway with the smaller count (shrink, never pad or block); above
`batch_max` take the first `batch_max` in source-id order and carry the
remainder's sources forward. -/

/-- An acquired frame: camera-source id, sequence number, pixel payload. -/
structure FrameA where
  src : ℕ
  seq : ℕ
  data : ℕ
  deriving DecidableEq, Repr

/-- Source-id order on frames. -/
def srcRel (a b : FrameA) : Prop := a.src ≤ b.src

instance : DecidableRel srcRel := fun a b => by
  unfold srcRel; infer_instance

instance : IsTotal FrameA srcRel where
  total a b := Nat.le_total a.src b.src

instance : IsTrans FrameA srcRel where
  trans _ _ _ := Nat.le_trans

/-- Assemble this iteration's batch: sort the ready frames by source id, take
at most `bmax` of them, and report the deferred sources to re-poll next
iteration. -/
def assembleBatch (bmax : ℕ) (ready : List FrameA) : List FrameA × List ℕ :=
  let s := List.insertionSort srcRel ready
  (s.take bmax, (s.drop bmax).map FrameA.src)

/-- The batch-assembler contract of §4.2 for one iteration's ready set. -/
def assemblerSpec (bmin bmax : ℕ) (ready : List FrameA) : Prop :=
  (assembleBatch bmax ready).1.length ≤ bmax ∧
  (ready.length < bmin →
    (assembleBatch bmax ready).1.Perm ready ∧ (assembleBatch bmax ready).2 = []) ∧
  List.Sorted srcRel (List.insertionSort srcRel ready) ∧
  (bmax < ready.length →
    (assembleBatch bmax ready).1 = (List.insertionSort srcRel ready).take bmax ∧
    (assembleBatch bmax ready).2 =
      ((List.insertionSort srcRel ready).drop bmax).map FrameA.src)

/-- C2: the Batch Assembler produces at most `batch_max` frames, shrinks
(rather than pads or waits) when fewer than `batch_min` frames are ready, and
above `batch_max` takes the first `batch_max` in source-id order, carrying
the remainder's sources forward. -/
theorem C2_batch_assembler (bmin bmax : ℕ) (ready : List FrameA)
    (h : bmin ≤ bmax) : assemblerSpec bmin bmax ready := by
  refine ⟨?_, ?_, List.sorted_insertionSort srcRel ready, fun _ => ⟨rfl, rfl⟩⟩
  · simp [assembleBatch]
  · intro hlt
    have hlen : (List.insertionSort srcRel ready).length ≤ bmax := by
      rw [(List.perm_insertionSort srcRel ready).length_eq]
      omega
    constructor
    · rw [assembleBatch]
      simp only [List.take_of_length_le hlen]
      exact List.perm_insertionSort srcRel ready
    · rw [assembleBatch]
      simp only [List.drop_eq_nil_of_le hlen, List.map_nil]

/-- C2 witness instance. -/
theorem C2_batch_assembler_witness :
    assemblerSpec 2 3 [⟨1, 0, 10⟩, ⟨0, 0, 11⟩] :=
  C2_batch_assembler 2 3 [⟨1, 0, 10⟩, ⟨0, 0, 11⟩] (by decide)

/-! ## Preprocessor letterbox transform (spec §4.3)

Modelled from the spec: the Rust preprocessor source is not part of the
checked-in tree, so the letterbox resize is embedded following §4.3 and the
glossary: an aspect-ratio-preserving scale `r = min (W/w0) (H/h0)` with
centered padding offsets, recorded so model-space coordinates can be mapped
back to original-frame coordinates.  Over exact rationals the round trip is
exact, hence within any floating-point tolerance. -/

/-- Recorded letterbox transform: scale factor and padding offsets. -/
structure LetterboxT where
  r : ℚ
  dx : ℚ
  dy : ℚ
  deriving DecidableEq, Repr

/-- Letterbox of an original `w0 × h0` frame into the model's `w × h` input. -/
def letterbox (w h w0 h0 : ℚ) : LetterboxT :=
  ⟨min (w / w0) (h / h0),
   (w - min (w / w0) (h / h0) * w0) / 2,
   (h - min (w / w0) (h / h0) * h0) / 2⟩

/-- Forward transform: original-frame point to model-space point. -/
def toModelSpace (t : LetterboxT) (p : ℚ × ℚ) : ℚ × ℚ :=
  (t.r * p.1 + t.dx, t.r * p.2 + t.dy)

/-- Inverse transform: model-space point back to original-frame point. -/
def toFrameSpace (t : LetterboxT) (p : ℚ × ℚ) : ℚ × ℚ :=
  ((p.1 - t.dx) / t.r, (p.2 - t.dy) / t.r)

/-- The coordinate round trip through the letterbox transform is the
identity on the given point. -/
def roundtripOk (w h w0 h0 : ℚ) (p : ℚ × ℚ) : Prop :=
  toFrameSpace (letterbox w h w0 h0) (toModelSpace (letterbox w h w0 h0) p) = p

/-- C4: for every original frame size (including non-square) the letterbox
forward transform followed by the recorded inverse maps any point back to
its original-frame coordinates (exactly, over ℚ, so within any tolerance). -/
theorem C4_letterbox_roundtrip (w h w0 h0 : ℚ)
    (hw : 0 < w) (hh : 0 < h) (hw0 : 0 < w0) (hh0 : 0 < h0) (p : ℚ × ℚ) :
    roundtripOk w h w0 h0 p := by
  have hr : 0 < min (w / w0) (h / h0) := lt_min (div_pos hw hw0) (div_pos hh hh0)
  have hrne : min (w / w0) (h / h0) ≠ 0 := ne_of_gt hr
  unfold roundtripOk toFrameSpace toModelSpace letterbox
  simp only [add_sub_cancel_right]
  rw [mul_div_cancel_left₀ _ hrne, mul_div_cancel_left₀ _ hrne]

/-- C4 witness instance on a non-square 640 × 480 frame. -/
theorem C4_letterbox_roundtrip_witness : roundtripOk 512 512 640 480 (100, 200) :=
  C4_letterbox_roundtrip 512 512 640 480 (by norm_num) (by norm_num)
    (by norm_num) (by norm_num) (100, 200)

/-! ## Parallel per-frame postprocessing (spec §4.5, §5)

Modelled from the spec: decoding of the frames of a batch is data-parallel
with no ordering requirement; workers pick frames in an arbitrary schedule
(any permutation of the batch indices) and the per-frame results are
reassembled in original batch order before the next stage. -/

/-- Strictly sequential decode of a batch of per-frame raw candidate lists. -/
def sequentialDecode (conf iou : ℚ) (batch : List (List Cand)) : List (List Cand) :=
  batch.map (postprocess conf iou)

/-- The unordered (index, result) pairs produced when workers process the
batch in the order given by `sched`. -/
def workerResults (conf iou : ℚ) (batch : List (List Cand)) (sched : List ℕ) :
    List (ℕ × List Cand) :=
  sched.filterMap (fun i => (batch[i]?).map (fun t => (i, postprocess conf iou t)))

/-- Reassemble per-frame results in original batch order from the unordered
worker output. -/
def reassemble (n : ℕ) (rs : List (ℕ × List Cand)) : List (Option (List Cand)) :=
  (List.range n).map (fun i => (rs.find? (fun p => p.1 == i)).map Prod.snd)

/-- Parallel decode: fan out the batch to workers according to `sched`, fan
back in, and reassemble in original order. -/
def parallelDecode (conf iou : ℚ) (batch : List (List Cand)) (sched : List ℕ) :
    List (Option (List Cand)) :=
  reassemble batch.length (workerResults conf iou batch sched)

/-- Parallel decoding agrees with strictly sequential decoding, frame by
frame and in order. -/
def parallelEqSeq (conf iou : ℚ) (batch : List (List Cand)) (sched : List ℕ) : Prop :=
  parallelDecode conf iou batch sched = (sequentialDecode conf iou batch).map some

/-- C3: for every worker schedule that covers the batch (any permutation of
its indices), parallel postprocessing yields exactly the sequential result,
per frame and in original order. -/
theorem C3_parallel_postprocessing (conf iou : ℚ) (batch : List (List Cand))
    (sched : List ℕ) (hperm : sched.Perm (List.range batch.length)) :
    parallelEqSeq conf iou batch sched := by
  unfold parallelEqSeq parallelDecode reassemble sequentialDecode
  apply List.ext_getElem
  · simp
  · intro i h1 h2
    simp only [List.getElem_map, List.getElem_range]
    have hi : i < batch.length := by simpa using h1
    have himem : i ∈ sched := hperm.mem_iff.mpr (List.mem_range.mpr hi)
    have hmem : (i, postprocess conf iou batch[i]) ∈ workerResults conf iou batch sched := by
      unfold workerResults
      refine List.mem_filterMap.mpr ⟨i, himem, ?_⟩
      rw [List.getElem?_eq_getElem hi]
      rfl
    have hsome : ((workerResults conf iou batch sched).find? (fun p => p.1 == i)).isSome := by
      rw [List.find?_isSome]
      exact ⟨_, hmem, by simp⟩
    obtain ⟨q, hq⟩ := Option.isSome_iff_exists.mp hsome
    obtain ⟨j, hjmem, hjeq⟩ := List.mem_filterMap.mp (List.mem_of_find?_eq_some hq)
    obtain ⟨t, ht, hft⟩ := Option.map_eq_some'.mp hjeq
    have hkey : q.1 = i := by
      have := List.find?_some hq
      simpa using this
    subst hft
    simp only at hkey
    subst hkey
    rw [List.getElem?_eq_getElem hi] at ht
    have htb : t = batch[j] := by
      injection ht with ht
      exact ht.symm
    subst htb
    rw [hq]
    rfl

/-- C3 witness instance: a two-frame batch decoded in reversed order. -/
theorem C3_parallel_postprocessing_witness :
    parallelEqSeq (1 / 2) (1 / 2) [[], [⟨0, 1, ⟨0, 0, 1, 1⟩, 0⟩]] [1, 0] :=
  C3_parallel_postprocessing (1 / 2) (1 / 2) [[], [⟨0, 1, ⟨0, 0, 1, 1⟩, 0⟩]] [1, 0]
    (by decide)

/-! ## Output Router and Pipeline Orchestrator (spec §4.7, §4.8, §5)

Modelled from the spec: the Rust orchestrator source is not part of the
checked-in tree, so the iteration state machine (`Idle → Acquiring →
Assembling → Preprocessing → Inferring → Postprocessing → Annotating →
Routing → Idle`), the routing table snapshot taken at the `Idle → Acquiring`
boundary, the queueing of routing updates, and the per-destination emission
rules of §4.7 are embedded following the spec's words. -/

/-- The outcome of one read attempt on a camera source. -/
inductive ReadRes where
  | frame (data : ℕ)
  | failed (reason : ℕ)
  | notReady
  deriving DecidableEq, Repr

/-- An event emitted toward one display destination. -/
inductive Ev where
  | image (dest : ℕ) (payload : ℕ)
  | err (dest : ℕ) (reason : ℕ)
  | nodata (dest : ℕ)
  deriving DecidableEq, Repr

/-- The destination an event is addressed to. -/
def Ev.dest : Ev → ℕ
  | .image d _ => d
  | .err d _ => d
  | .nodata d => d

/-- §4.7 emission rule for one destination under mapping `m`: no mapped
camera emits nothing; a ready frame emits its image payload; a failed source
emits an error status; a source with no ready frame emits "no data". -/
def emitForDest (reads : ℕ → ReadRes) (d : ℕ) : Option ℕ → Option Ev
  | none => none
  | some s =>
    match reads s with
    | .frame data => some (.image d data)
    | .failed r => some (.err d r)
    | .notReady => some (.nodata d)

/-- Route one iteration's results: each destination in order, through the
current routing-table snapshot. -/
def routeEmit (dests : List ℕ) (tbl : ℕ → Option ℕ) (reads : ℕ → ReadRes) : List Ev :=
  dests.filterMap (fun d => emitForDest reads d (tbl d))

/-- Apply one queued routing update (destination id, optional source id). -/
def applyUpd (t : ℕ → Option ℕ) (u : ℕ × Option ℕ) : ℕ → Option ℕ :=
  fun d => if d = u.1 then u.2 else t d

/-- Apply a queue of routing updates in arrival order. -/
def applyUpds (t : ℕ → Option ℕ) (us : List (ℕ × Option ℕ)) : ℕ → Option ℕ :=
  us.foldl applyUpd t

/-- Orchestrator iteration phases (spec §4.8). -/
inductive Phase where
  | idle
  | acquiring
  | assembling
  | preprocessing
  | inferring
  | postprocessing
  | annotating
  | routing
  deriving DecidableEq, Repr

/-- Orchestrator state: current phase, the routing table, the queue of
pending routing updates, the iteration counter, and the log of per-iteration
emitted results. -/
structure OSt where
  phase : Phase
  table : ℕ → Option ℕ
  pending : List (ℕ × Option ℕ)
  iter : ℕ
  log : List (List Ev)

/-- One orchestrator step.  Queued routing updates are applied only at the
`Idle → Acquiring` boundary; the table is then held for the iteration, and
the Routing phase emits using that snapshot. -/
def stepO (dests : List ℕ) (reads : ℕ → ℕ → ReadRes) (s : OSt) : OSt :=
  match s.phase with
  | .idle =>
    { s with phase := .acquiring, table := applyUpds s.table s.pending, pending := [] }
  | .acquiring => { s with phase := .assembling }
  | .assembling => { s with phase := .preprocessing }
  | .preprocessing => { s with phase := .inferring }
  | .inferring => { s with phase := .postprocessing }
  | .postprocessing => { s with phase := .annotating }
  | .annotating => { s with phase := .routing }
  | .routing =>
    { s with phase := .idle, iter := s.iter + 1,
             log := s.log ++ [routeEmit dests s.table (reads s.iter)] }

/-- An action observed by the orchestrator: one phase step, or the arrival
of a routing-update command from the shell (which is only queued). -/
inductive Act where
  | step
  | inject (u : ℕ × Option ℕ)

/-- Run a sequence of actions. -/
def runActs (dests : List ℕ) (reads : ℕ → ℕ → ReadRes) : List Act → OSt → OSt
  | [], s => s
  | .step :: as, s => runActs dests reads as (stepO dests reads s)
  | .inject u :: as, s => runActs dests reads as { s with pending := s.pending ++ [u] }

/-- The eight steps of one full iteration, `Idle` back to `Idle`. -/
def iterActs : List Act := List.replicate 8 .step

/-- One full iteration with a routing update arriving after `k` of its
steps (mid-iteration for `1 ≤ k ≤ 7`). -/
def injectAt (u : ℕ × Option ℕ) (k : ℕ) : List Act :=
  iterActs.take k ++ [Act.inject u] ++ iterActs.drop k

/-- Routing isolation over two iterations: a routing update arriving after
`k` steps of the first iteration leaves the first iteration's emitted
results exactly as they are without the update, and the second iteration
emits under the updated table. -/
def routingIsolated (dests : List ℕ) (reads : ℕ → ℕ → ReadRes)
    (t0 : ℕ → Option ℕ) (u : ℕ × Option ℕ) (k : ℕ) : Prop :=
  (runActs dests reads (injectAt u k ++ iterActs)
      ⟨.idle, t0, [], 0, []⟩).log =
    [routeEmit dests t0 (reads 0), routeEmit dests (applyUpd t0 u) (reads 1)] ∧
  (runActs dests reads (iterActs ++ iterActs)
      ⟨.idle, t0, [], 0, []⟩).log =
    [routeEmit dests t0 (reads 0), routeEmit dests t0 (reads 1)]

/-- C5: a routing update arriving mid-iteration (after `k` steps,
`1 ≤ k ≤ 7`) never changes that iteration's emitted results, and becomes
visible exactly at the next iteration's `Idle → Acquiring` boundary. -/
theorem C5_routing_isolation (dests : List ℕ) (reads : ℕ → ℕ → ReadRes)
    (t0 : ℕ → Option ℕ) (u : ℕ × Option ℕ) (k : ℕ)
    (hk1 : 1 ≤ k) (hk2 : k ≤ 7) : routingIsolated dests reads t0 u k := by
  interval_cases k <;> exact ⟨rfl, rfl⟩

/-- C5 witness instance: the update of destination 1 to camera 2 arrives
after the inference step of iteration 0. -/
theorem C5_routing_isolation_witness :
    routingIsolated [1, 2, 3] (fun _ s => .frame s) (fun _ => some 0) (1, some 2) 5 :=
  C5_routing_isolation [1, 2, 3] (fun _ s => .frame s) (fun _ => some 0) (1, some 2) 5
    (by decide) (by decide)

theorem emitForDest_dest {reads : ℕ → ReadRes} {d : ℕ} {m : Option ℕ} {e : Ev}
    (h : emitForDest reads d m = some e) : e.dest = d := by
  cases m with
  | none => exact Option.noConfusion h
  | some s =>
    simp only [emitForDest] at h
    cases hr : reads s <;> rw [hr] at h <;> (injection h with h; rw [← h]; rfl)

/-- Fault isolation for one iteration in which source `bad` fails its reads
with reason `r` while every other source delivers a frame: exactly the
destinations mapped to `bad` receive an error status, destinations mapped to
healthy sources receive their image payloads, and the orchestrator completes
the iteration and returns to `Idle`. -/
def faultIsolated (dests : List ℕ) (tbl : ℕ → Option ℕ) (reads : ℕ → ReadRes)
    (bad r : ℕ) : Prop :=
  (∀ d ∈ dests, tbl d = some bad →
    Ev.err d r ∈ routeEmit dests tbl reads ∧
    ∀ p, Ev.image d p ∉ routeEmit dests tbl reads) ∧
  (∀ d ∈ dests, ∀ s, tbl d = some s → s ≠ bad →
    (∃ p, Ev.image d p ∈ routeEmit dests tbl reads) ∧
    ∀ q, Ev.err d q ∉ routeEmit dests tbl reads) ∧
  (runActs dests (fun _ => reads) iterActs ⟨.idle, tbl, [], 0, []⟩).phase = .idle ∧
  (runActs dests (fun _ => reads) iterActs ⟨.idle, tbl, [], 0, []⟩).log =
    [routeEmit dests tbl reads]

/-- C6: when one source fails its reads while the others succeed, exactly
the destinations mapped to the failing source receive an error status,
every destination mapped to a healthy source receives its image payload in
the same iteration, and the iteration loop is not terminated. -/
theorem C6_fault_isolation (dests : List ℕ) (tbl : ℕ → Option ℕ)
    (reads : ℕ → ReadRes) (bad r : ℕ)
    (hbad : reads bad = .failed r)
    (hgood : ∀ s, s ≠ bad → ∃ dat, reads s = .frame dat) :
    faultIsolated dests tbl reads bad r := by
  refine ⟨?_, ?_, rfl, rfl⟩
  · intro d hd hmap
    constructor
    · refine List.mem_filterMap.mpr ⟨d, hd, ?_⟩
      rw [hmap]
      simp only [emitForDest]
      rw [hbad]
    · intro p hmem
      obtain ⟨d2, hd2, heq⟩ := List.mem_filterMap.mp hmem
      have hdd : d = d2 := emitForDest_dest heq
      subst hdd
      rw [hmap] at heq
      simp only [emitForDest] at heq
      rw [hbad] at heq
      exact Ev.noConfusion (Option.some.inj heq)
  · intro d hd s hmap hne
    obtain ⟨dat, hdat⟩ := hgood s hne
    constructor
    · refine ⟨dat, List.mem_filterMap.mpr ⟨d, hd, ?_⟩⟩
      rw [hmap]
      simp only [emitForDest]
      rw [hdat]
    · intro q hmem
      obtain ⟨d2, hd2, heq⟩ := List.mem_filterMap.mp hmem
      have hdd : d = d2 := emitForDest_dest heq
      subst hdd
      rw [hmap] at heq
      simp only [emitForDest] at heq
      rw [hdat] at heq
      exact Ev.noConfusion (Option.some.inj heq)

/-- C6 witness instance: three destinations on three sources, source 1
failing. -/
theorem C6_fault_isolation_witness :
    faultIsolated [1, 2, 3]
      (fun d => if d = 1 then some 0 else if d = 2 then some 1 else
        if d = 3 then some 2 else none)
      (fun s => if s = 1 then ReadRes.failed 7 else ReadRes.frame s) 1 7 :=
  C6_fault_isolation [1, 2, 3]
    (fun d => if d = 1 then some 0 else if d = 2 then some 1 else
      if d = 3 then some 2 else none)
    (fun s => if s = 1 then ReadRes.failed 7 else ReadRes.frame s) 1 7
    (by simp)
    (fun s hs => ⟨s, by simp [hs]⟩)

/-! ## Shell: camera-selection routing commands

Embedded from `src/src/routes/+page.svelte`: the page subscribes to the
three window stores; each subscription callback invokes the
`update_win_camera` command with that window's id and the store's value.
A Svelte store fires its subscriber once on subscription (with the current
value) and then once per change of the value.  The control panel
additionally invokes the read-only `poll_and_emit_image_sources` command on
mount. -/

/-- The three display destinations of the shell. -/
inductive Win where
  | win1
  | win2
  | win3
  deriving DecidableEq, Repr

/-- The destination id passed to `update_win_camera` for each window. -/
def Win.wid : Win → ℕ
  | .win1 => 1
  | .win2 => 2
  | .win3 => 3

/-- A command the shell can invoke on the core. -/
inductive Cmd where
  | updateWinCamera (win : ℕ) (index : ℕ)
  | pollSources
  deriving DecidableEq, Repr

/-- The subscription callback installed for a window's store: invoke
`update_win_camera` with the window id and the new value. -/
def subCallback (w : Win) (value : ℕ) : Cmd := .updateWinCamera w.wid value

/-- Commands invoked while the page mounts: each of the three store
subscriptions fires once with its initial value, and the control panel
invokes the source enumeration. -/
def mountCmds (i1 i2 i3 : ℕ) : List Cmd :=
  [subCallback .win1 i1, subCallback .win2 i2, subCallback .win3 i3, .pollSources]

/-- The full command stream of a shell session with the given initial store
values and the given sequence of camera-selection changes. -/
def shellSession (i1 i2 i3 : ℕ) (changes : List (Win × ℕ)) : List Cmd :=
  mountCmds i1 i2 i3 ++ changes.map (fun p => subCallback p.1 p.2)

/-- Whether a command mutates pipeline state: routing updates do; a poll is
a read-only enumeration request (spec §6). -/
def mutatesPipeline : Cmd → Prop
  | .updateWinCamera _ _ => True
  | .pollSources => False

/-- C7: every change of a window's camera-selection value sends exactly one
`update_win_camera` command carrying that window's destination id and the
newly selected camera index (the post-mount command stream is precisely one
command per change, in order), and every pipeline-mutating command the shell
ever issues is an `update_win_camera` that is either a mount-time
subscription fire or corresponds to a selection change. -/
theorem C7_shell_routing_commands (i1 i2 i3 : ℕ) (changes : List (Win × ℕ)) :
    (shellSession i1 i2 i3 changes).drop 4 =
      changes.map (fun p => Cmd.updateWinCamera p.1.wid p.2) ∧
    (∀ c ∈ shellSession i1 i2 i3 changes, mutatesPipeline c →
      (∃ w v, c = Cmd.updateWinCamera (Win.wid w) v) ∧
      (c ∈ mountCmds i1 i2 i3 ∨
        ∃ p ∈ changes, c = Cmd.updateWinCamera p.1.wid p.2)) := by
  constructor
  · rfl
  · intro c hc hmut
    rcases List.mem_append.mp hc with hm | hm
    · constructor
      · simp only [mountCmds, List.mem_cons, List.not_mem_nil, or_false] at hm
        rcases hm with h | h | h | h
        · exact ⟨.win1, i1, h⟩
        · exact ⟨.win2, i2, h⟩
        · exact ⟨.win3, i3, h⟩
        · rw [h] at hmut
          exact absurd hmut id
      · exact Or.inl hm
    · obtain ⟨p, hp, hpc⟩ := List.mem_map.mp hm
      exact ⟨⟨p.1, p.2, hpc.symm⟩, Or.inr ⟨p, hp, hpc.symm⟩⟩

/-! ## Shell: camera enumeration (src/src/lib/ControlPanel.svelte)

The panel invokes `poll_and_emit_image_sources` on mount, listens for the
`available-cameras` event, stores its payload, and renders one select per
window populated from that list, or the text "No cameras available" when the
list is empty. -/

/-- An event the core emits toward the control panel. -/
inductive CoreEv where
  | availableCameras (cams : List ℕ)
  deriving DecidableEq, Repr

/-- Modelled from the spec: the core's response to a "poll sources" request
(the Rust handler is not in the checked-in tree) is a single event carrying
the current list of openable camera-source ids. -/
def pollSourcesEvents (avail : List ℕ) : List CoreEv := [.availableCameras avail]

/-- What the control panel renders for its selection controls. -/
inductive PanelView where
  | noCameras
  | selects (options : List ℕ)
  deriving DecidableEq, Repr

/-- ControlPanel render: a nonempty `available_cameras` list populates the
selects with exactly that list; an empty list shows "No cameras
available". -/
def renderPanel (available_cameras : List ℕ) : PanelView :=
  if 0 < available_cameras.length then .selects available_cameras else .noCameras

/-- The `available-cameras` listener stores the event's payload. -/
def panelStateAfter (e : CoreEv) : List ℕ :=
  match e with
  | .availableCameras cams => cams

/-- C8: a poll produces a single event carrying the current list of
available camera-source ids, and the shell renders its selection controls
from exactly that list, showing the no-cameras text iff the list is
empty. -/
theorem C8_poll_sources (avail : List ℕ) :
    (pollSourcesEvents avail).length = 1 ∧
    ∀ e ∈ pollSourcesEvents avail,
      renderPanel (panelStateAfter e) =
        if avail.isEmpty then PanelView.noCameras else PanelView.selects avail := by
  refine ⟨rfl, ?_⟩
  intro e he
  rw [List.mem_singleton.mp he]
  cases avail with
  | nil => rfl
  | cons a t => simp [renderPanel, panelStateAfter]

/-! ## Shell: per-destination display components

Embedded from the two checked-in CameraDisplay revisions.  Object URLs are
modelled as naturals handed out by a counter; `live` is the set of URLs
created via `URL.createObjectURL` and not yet revoked.  The empty/unset
`img_url` string is modelled as `none`. -/

/-- Display component state: the displayed error message, the installed
object URL, the allocator counter, and the live (unrevoked) object URLs. -/
structure Disp where
  errMsg : String
  url : Option ℕ
  next : ℕ
  live : List ℕ
  deriving DecidableEq, Repr

/-- `URL.createObjectURL`: allocate a fresh object URL. -/
def createURL (d : Disp) : ℕ × Disp :=
  (d.next, { d with live := d.live ++ [d.next], next := d.next + 1 })

/-- `URL.revokeObjectURL` on an optional URL (revoking the unset url is a
no-op). -/
def revokeURL (d : Disp) (u : Option ℕ) : Disp :=
  match u with
  | none => d
  | some x => { d with live := d.live.erase x }

/-- `updateUrl` from the components: revoke the previously installed object
URL if there is one, then install the new one. -/
def updateUrl (d : Disp) (u : ℕ) : Disp :=
  let d1 := if d.url.isSome then revokeURL d d.url else d
  { d1 with url := some u }

/-- The combined `image-payload-N` event payload of the single-listener
CameraDisplay revision: optional image bytes and an error string. -/
structure ImgPayload where
  image : Option (List ℕ)
  error : String
  deriving DecidableEq, Repr

/-- The single-listener CameraDisplay handler: a truthy (nonempty) error
string displays the error and ignores the image; otherwise empty or missing
image bytes set the "No image data received" status and return; otherwise
the error is cleared and a fresh object URL is installed. -/
def handleImagePayload (d : Disp) (p : ImgPayload) : Disp :=
  if p.error ≠ "" then { d with errMsg := p.error }
  else
    match p.image with
    | none => { d with errMsg := "No image data received" }
    | some bytes =>
      if bytes.isEmpty then { d with errMsg := "No image data received" }
      else
        let c := createURL { d with errMsg := "" }
        updateUrl c.2 c.1

/-- C9's property: a payload with a nonempty error string only sets the
error text (the image bytes and the installed URL are untouched, and no
object URL is created); a payload with an empty error string and empty or
missing image bytes only sets the "No image data received" status, leaving
the displayed URL unchanged. -/
def payloadHandlingOk (d : Disp) (p : ImgPayload) : Prop :=
  (p.error ≠ "" → handleImagePayload d p = { d with errMsg := p.error }) ∧
  (p.error = "" → (p.image = none ∨ p.image = some []) →
    handleImagePayload d p = { d with errMsg := "No image data received" })

/-- C9: the image-payload listener displays a carried nonempty error string
and ignores any image bytes in the same payload; with an empty error string
and empty or missing bytes it shows the no-data status and leaves the
current image URL unchanged. -/
theorem C9_payload_error_handling (d : Disp) (p : ImgPayload) :
    payloadHandlingOk d p := by
  constructor
  · intro h
    simp [handleImagePayload, h]
  · intro h himg
    rcases himg with himg | himg <;> simp [handleImagePayload, h, himg, List.isEmpty]

/-- C9 witness instance: an error payload and a no-data payload. -/
theorem C9_payload_error_handling_witness :
    handleImagePayload ⟨"", some 0, 1, [0]⟩ ⟨some [5], "device lost"⟩ =
      ⟨"device lost", some 0, 1, [0]⟩ ∧
    handleImagePayload ⟨"", some 0, 1, [0]⟩ ⟨none, ""⟩ =
      ⟨"No image data received", some 0, 1, [0]⟩ :=
  ⟨(C9_payload_error_handling ⟨"", some 0, 1, [0]⟩ ⟨some [5], "device lost"⟩).1
      (by decide),
   (C9_payload_error_handling ⟨"", some 0, 1, [0]⟩ ⟨none, ""⟩).2 rfl (Or.inl rfl)⟩

/-! ### Two-listener CameraDisplay revision (C10) -/

/-- An event arriving at the two-listener CameraDisplay: raw image bytes on
`image-payload-N`, or an error string on `error-N`. -/
inductive DispEv where
  | imagePayload (image : Option (List ℕ))
  | errorEvent (m : String)
  deriving DecidableEq, Repr

/-- One event of the two-listener CameraDisplay: the image listener installs
a fresh object URL through `updateUrl` (which revokes the previous one
first); the error listener sets the error text, revokes the installed URL
and clears it. -/
def stepDisp (d : Disp) : DispEv → Disp
  | .imagePayload img =>
    match img with
    | none => { d with errMsg := "No image data received" }
    | some bytes =>
      if bytes.isEmpty then { d with errMsg := "No image data received" }
      else
        let c := createURL { d with errMsg := "" }
        updateUrl c.2 c.1
  | .errorEvent m =>
    { revokeURL d d.url with errMsg := m, url := none }

/-- The component's initial state: no error, unset url, no object URLs. -/
def initDisp : Disp := ⟨"", none, 0, []⟩

/-- State of the display after a sequence of events from mount. -/
def runDisp (evs : List DispEv) : Disp := evs.foldl stepDisp initDisp

/-- An element of the component's rendered output. -/
inductive RElem where
  | errText (s : String)
  | imageTag (u : Option ℕ)
  deriving DecidableEq, Repr

/-- The template's render: the error paragraph when the error message is
nonempty, otherwise the image tag with the installed URL. -/
def renderDisp (d : Disp) : List RElem :=
  if d.errMsg ≠ "" then [.errText d.errMsg] else [.imageTag d.url]

/-- Reachable-state invariant of the display: at most one live object URL,
every live URL is the installed one, and all handed-out URLs are below the
allocator counter. -/
def DispInv (d : Disp) : Prop :=
  d.live.length ≤ 1 ∧ (∀ u ∈ d.live, d.url = some u) ∧
  (∀ u ∈ d.live, u < d.next) ∧ (∀ x, d.url = some x → x < d.next)

theorem inv_live_cases {d : Disp} (h : DispInv d) :
    d.live = [] ∨ ∃ x, d.live = [x] ∧ d.url = some x := by
  obtain ⟨hlen, hurl, _, _⟩ := h
  match hd : d.live with
  | [] => exact Or.inl rfl
  | [x] =>
    refine Or.inr ⟨x, rfl, hurl x ?_⟩
    rw [hd]
    exact List.mem_singleton_self x
  | x :: y :: rest =>
    rw [hd] at hlen
    simp at hlen

theorem stepDisp_inv {d : Disp} (h : DispInv d) (e : DispEv) :
    DispInv (stepDisp d e) := by
  have hlive := inv_live_cases h
  obtain ⟨hlen, hurl, hlt, hunext⟩ := h
  cases e with
  | errorEvent m =>
    cases hu : d.url with
    | none =>
      have hl : d.live = [] := by
        rcases hlive with hl | ⟨x, _, hx⟩
        · exact hl
        · rw [hu] at hx; exact Option.noConfusion hx
      refine ⟨?_, ?_, ?_, ?_⟩ <;> simp [stepDisp, revokeURL, hu, hl]
    | some x =>
      have hl : d.live.erase x = [] := by
        rcases hlive with hl | ⟨y, hl, hy⟩
        · rw [hl]; rfl
        · rw [hu] at hy
          rw [hl, Option.some.inj hy, List.erase_cons_head]
      refine ⟨?_, ?_, ?_, ?_⟩ <;> simp [stepDisp, revokeURL, hu, hl]
  | imagePayload img =>
    cases img with
    | none => exact ⟨hlen, hurl, hlt, hunext⟩
    | some bytes =>
      by_cases hb : bytes.isEmpty
      · have hres : stepDisp d (.imagePayload (some bytes)) =
            { d with errMsg := "No image data received" } := by
          simp [stepDisp, hb]
        rw [hres]
        exact ⟨hlen, hurl, hlt, hunext⟩
      · have hres : stepDisp d (.imagePayload (some bytes)) =
            { errMsg := "", url := some d.next, next := d.next + 1,
              live := [d.next] } := by
          cases hu : d.url with
          | none =>
            have hl : d.live = [] := by
              rcases hlive with hl | ⟨x, _, hx⟩
              · exact hl
              · rw [hu] at hx; exact Option.noConfusion hx
            simp [stepDisp, hb, createURL, updateUrl, revokeURL, hu, hl]
          | some x =>
            have hxn : x ≠ d.next := Nat.ne_of_lt (hunext x hu)
            rcases hlive with hl | ⟨y, hl, hy⟩
            · simp [stepDisp, hb, createURL, updateUrl, revokeURL, hu, hl,
                List.erase_cons_tail, hxn]
            · rw [hu] at hy
              have hyx : y = x := (Option.some.inj hy).symm
              simp [stepDisp, hb, createURL, updateUrl, revokeURL, hu, hl, hyx,
                List.erase_cons_head]
        rw [hres]
        refine ⟨by simp, ?_, ?_, ?_⟩
        · intro u hu
          simp only [List.mem_singleton.mp hu]
        · intro u hu
          rw [List.mem_singleton.mp hu]
          exact Nat.lt_succ_self _
        · intro x hx
          rw [Option.some.inj hx]
          exact Nat.lt_succ_self _

theorem runDisp_inv (evs : List DispEv) : DispInv (runDisp evs) := by
  have hgen : ∀ (l : List DispEv) (d : Disp), DispInv d → DispInv (l.foldl stepDisp d) := by
    intro l
    induction l with
    | nil => intro d h; exact h
    | cons e t ih => intro d h; exact ih _ (stepDisp_inv h e)
  refine hgen evs initDisp ⟨?_, ?_, ?_, ?_⟩ <;> simp [initDisp]

/-- C10's property: after any event sequence from mount, at most one object
URL created by the destination is live; the rendered output never contains
an error paragraph and an image tag together; and an error event always
leaves the installed URL cleared. -/
def displayUrlExclusive (evs : List DispEv) : Prop :=
  (runDisp evs).live.length ≤ 1 ∧
  (∀ s u, ¬(RElem.errText s ∈ renderDisp (runDisp evs) ∧
            RElem.imageTag u ∈ renderDisp (runDisp evs))) ∧
  (∀ m, (stepDisp (runDisp evs) (DispEv.errorEvent m)).url = none)

/-- C10: at most one object URL per destination is live at any time
(`updateUrl` revokes the previous URL before installing the new one and an
error event revokes and clears it), and error text and image are mutually
exclusive in the rendered output. -/
theorem C10_display_url_invariant (evs : List DispEv) :
    displayUrlExclusive evs := by
  refine ⟨(runDisp_inv evs).1, ?_, fun m => rfl⟩
  intro s u hsu
  obtain ⟨h1, h2⟩ := hsu
  unfold renderDisp at h1 h2
  by_cases h : (runDisp evs).errMsg ≠ ""
  · rw [if_pos h] at h2
    exact RElem.noConfusion (List.mem_singleton.mp h2)
  · rw [if_neg h] at h1
    exact RElem.noConfusion (List.mem_singleton.mp h1)

end FodSpec
